import Mathlib

/-!
Verification development for the deriva-py download orchestration pipeline.

The repository's download pipeline (orchestrator, query executor, output
format processors, transform processors) is specified in `spec.md` and in
`docs/cli/deriva-download-cli.md`.  The Python implementation of these
components is not part of the source snapshot, so the definitions below are
shallow embeddings modelled from the specification's words; each such
definition carries a doc comment saying what it models.
-/

namespace Deriva

/-! ## Shared data model: context, rows, manifest entries -/

/-- Modelled from the spec: a catalog row is a mapping of column name to
scalar value; we model scalars as strings and rows as association lists. -/
def Row : Type := List (String × String)

/-- Modelled from the spec: the shared context ("environment") is a mutable
key-value mapping used for string interpolation across the pipeline. -/
def Ctx : Type := List (String × String)

/-- Modelled from the spec: setting one key in the context (dict-update
semantics: the new binding replaces any previous binding of the same key). -/
def ctxSet (ctx : Ctx) (k v : String) : Ctx :=
  (k, v) :: List.filter (fun p => ! (p.1 = k : Bool)) ctx

/-- Modelled from the spec: merging a row's key-value fields into the
context, field by field (append-only union with per-key replacement). -/
def mergeRow (ctx : Ctx) (r : Row) : Ctx :=
  List.foldl (fun c p => ctxSet c p.1 p.2) ctx r

/-- Modelled from the spec: a file download manifest row, `{url, length,
checksum(es), filename}`; every row must contain at least a `url` field,
the other fields are optional. -/
structure ManifestRow where
  url : String
  filename : Option String := none
  length : Option Nat := none
  checksum : Option Nat := none
deriving DecidableEq, Repr

/-! ## C5: the `env` output format processor -/

/-- Modelled from the spec: the `env` processor "takes the first row only
and merges its fields into the shared context; a query returning zero rows
leaves the context unchanged (non-fatal)".  The returned Bool is the stage
success flag. -/
def envProcess (rows : List Row) (ctx : Ctx) : Ctx × Bool :=
  match rows with
  | [] => (ctx, true)
  | r :: _ => (mergeRow ctx r, true)

/-! ## C7: the `cat` transform processor -/

/-- Modelled from the spec: the concatenation transform processor "reads N
named input files in declared order and writes their byte contents,
concatenated, to a single output file".  File contents are byte lists. -/
def catProcess (inputs : List (List Nat)) : List Nat :=
  List.foldl (fun acc f => acc ++ f) [] inputs

/-! ## C8 and C4: processor descriptors and the name registry -/

/-- Modelled from the spec: a processor implementation selected by the
orchestrator; the built-in query output processors are `env`, `csv`,
`json`, `json-stream`, `download` and `fetch`, and an external class
reference loads an external implementation. -/
inductive ProcImpl where
  | envProc
  | csvProc
  | jsonProc
  | jsonStreamProc
  | downloadProc
  | fetchProc
  | externalProc (className : String)
deriving DecidableEq, Repr

/-- Modelled from the spec: a processor descriptor `{processor: <name>,
processor_type: <optional class reference>, processor_params: ...}`; the
params we keep are the ones the orchestrator model observes. -/
structure Descriptor where
  processor : String
  processorType : Option String := none
  queryPath : String := ""
  outputPath : String := ""
deriving DecidableEq, Repr

/-- Modelled from the spec: the fixed name-to-implementation registry for
built-in query output processors (valid names are `env`, `csv`, `json`,
`json-stream`, `download`, `fetch`). -/
def builtinRegistry (name : String) : Option ProcImpl :=
  if name = "env" then some ProcImpl.envProc
  else if name = "csv" then some ProcImpl.csvProc
  else if name = "json" then some ProcImpl.jsonProc
  else if name = "json-stream" then some ProcImpl.jsonStreamProc
  else if name = "download" then some ProcImpl.downloadProc
  else if name = "fetch" then some ProcImpl.fetchProc
  else none

/-- Modelled from the spec: descriptor resolution.  If `processor_type`
is present it OVERRIDES the default value mapped to the `processor` name:
the external loader is consulted and the registry is not; otherwise the
built-in registry resolves the `processor` name. -/
def resolveProcessor (externLoad : String → Option ProcImpl)
    (d : Descriptor) : Option ProcImpl :=
  match d.processorType with
  | some t => externLoad t
  | none => builtinRegistry d.processor

/-! ## C1 and C3: asset fetch-reference and asset download processors -/

/-- Modelled from the spec: the result of an HTTP HEAD metadata probe
against an asset url — the parsed response headers may supply the object
size, a checksum, and a content-disposition filename. -/
structure ProbeResult where
  length : Option Nat := none
  checksum : Option Nat := none
  contentDisposition : Option String := none
deriving DecidableEq, Repr

/-- Modelled from the spec: length resolution for a manifest row — the
row's own `length` field if present, otherwise the value discovered by the
HEAD metadata probe against the row's `url`. -/
def resolveLength (probe : String → ProbeResult) (r : ManifestRow) : Option Nat :=
  match r.length with
  | some n => some n
  | none => (probe r.url).length

/-- Modelled from the spec: checksum resolution for a manifest row — the
row's own checksum field if present, otherwise the value discovered by the
HEAD metadata probe against the row's `url`. -/
def resolveChecksum (probe : String → ProbeResult) (r : ManifestRow) : Option Nat :=
  match r.checksum with
  | some c => some c
  | none => (probe r.url).checksum

/-- Modelled from the spec: a finalized remote-reference ledger entry
`(url, length, checksum)` for the archive packager's fetch mechanism. -/
structure FetchEntry where
  url : String
  length : Nat
  checksum : Nat
deriving DecidableEq, Repr

/-- Modelled from the spec: the per-row outcome of the fetch-reference
processor — a finalized entry, or an unrecoverable error for that asset. -/
inductive RowResult where
  | entry (e : FetchEntry)
  | assetError (url : String)
deriving DecidableEq, Repr

/-- Whether a per-row fetch outcome is an error. -/
def RowResult.isError : RowResult → Bool
  | .entry _ => false
  | .assetError _ => true

/-- Modelled from the spec: processing of one fetch-reference manifest row.
Length and checksum are taken from the row, falling back to the metadata
probe; if either still cannot be determined the row is an error for that
asset. -/
def fetchRowProcess (probe : String → ProbeResult) (r : ManifestRow) : RowResult :=
  match resolveLength probe r, resolveChecksum probe r with
  | some len, some ck => .entry { url := r.url, length := len, checksum := ck }
  | _, _ => .assetError r.url

/-- Modelled from the spec: the outcome of one pipeline stage — completed
with per-row results, or aborted. -/
inductive StageOutcome (α : Type) where
  | completed (results : List α)
  | aborted (msg : String)
deriving DecidableEq, Repr

/-- Modelled from the spec: the fetch-reference stage processes every
manifest row; per-asset errors are recorded and skipped by default and
escalate to a stage abort only in strict mode. -/
def fetchStage (probe : String → ProbeResult) (strict : Bool)
    (rows : List ManifestRow) : StageOutcome RowResult :=
  let results := rows.map (fetchRowProcess probe)
  if strict && results.any RowResult.isError then .aborted "asset errors"
  else .completed results

/-- Modelled from the spec: the per-asset verification outcome of the
asset download processor. -/
inductive DlVerify where
  | ok
  | checksumMismatch
  | transferError
deriving DecidableEq, Repr

/-- Whether a per-asset download outcome is an error. -/
def DlVerify.isError : DlVerify → Bool
  | .ok => false
  | _ => true

/-- Modelled from the spec: stand-in digest for the external checksum
algorithms (md5, sha1, ...): the byte sum.  Like a real digest it changes
under any single-byte substitution, which is the property the claims use. -/
def digest (bytes : List Nat) : Nat := bytes.sum

/-- Modelled from the spec: per-row asset download — stream the object's
bytes from the object store and verify them against any checksum field
present in the row. -/
def downloadRowProcess (hash : List Nat → Nat)
    (store : String → Option (List Nat)) (r : ManifestRow) : DlVerify :=
  match store r.url with
  | none => .transferError
  | some bytes =>
    match r.checksum with
    | none => .ok
    | some ck => if hash bytes = ck then .ok else .checksumMismatch

/-- Modelled from the spec: the asset download stage downloads and verifies
every manifest row; a checksum mismatch is reported per-file without
aborting the remaining rows, unless strict mode is set. -/
def downloadVerifyStage (hash : List Nat → Nat)
    (store : String → Option (List Nat)) (strict : Bool)
    (rows : List ManifestRow) : StageOutcome DlVerify :=
  let results := rows.map (downloadRowProcess hash store)
  if strict && results.any DlVerify.isError then .aborted "asset errors"
  else .completed results

/-! ## C4: fail-fast pipeline validation -/

/-- Modelled from the spec: the observable pipeline execution state — the
shared context, the queries issued so far, and the output files written so
far (in order). -/
structure PipeState where
  ctx : Ctx
  queriesIssued : List String
  filesWritten : List String

/-- Modelled from the spec: fail-fast resolution of every descriptor of a
stanza; any descriptor that resolves to no known processor makes the whole
stanza unresolvable. -/
def resolveAll (externLoad : String → Option ProcImpl) :
    List Descriptor → Option (List ProcImpl)
  | [] => some []
  | d :: ds =>
    match resolveProcessor externLoad d with
    | none => none
    | some i =>
      match resolveAll externLoad ds with
      | none => none
      | some is => some (i :: is)

/-- Modelled from the spec: the effect of one resolved query-stage
processor: it issues its query, and either merges the first result row
into the context (`env`) or writes its output file (all other built-in and
external output processors). -/
def runStage (queryExec : String → List Row) (st : PipeState)
    (d : Descriptor) (impl : ProcImpl) : PipeState :=
  let rows := queryExec d.queryPath
  let st1 := { st with queriesIssued := st.queriesIssued ++ [d.queryPath] }
  match impl with
  | ProcImpl.envProc => { st1 with ctx := (envProcess rows st1.ctx).1 }
  | _ => { st1 with filesWritten := st1.filesWritten ++ [d.outputPath] }

/-- Modelled from the spec: pipeline execution over one stanza: every
descriptor is resolved before any stage executes (fail-fast validation);
an unresolvable descriptor fails the whole pipeline with no stage run,
otherwise the stages run strictly in declared order.  The Bool is the
success flag. -/
def runPipeline (externLoad : String → Option ProcImpl)
    (queryExec : String → List Row) (descriptors : List Descriptor)
    (st0 : PipeState) : PipeState × Bool :=
  match resolveAll externLoad descriptors with
  | none => (st0, false)
  | some impls =>
    ((descriptors.zip impls).foldl
       (fun st p => runStage queryExec st p.1 p.2) st0, true)

/-! ## C6: the line-delimited-JSON (json-stream) output processor -/

/-- Modelled from the spec: splitting a character stream into its
newline-terminated lines (the reader side of the json-stream format). -/
def splitNL : List Char → List (List Char)
  | [] => []
  | c :: cs =>
    if c = '\n' then [] :: splitNL cs
    else
      match splitNL cs with
      | [] => [[c]]
      | l :: ls => (c :: l) :: ls

/-- Modelled from the spec: the json-stream output processor writes one
serialized record per line, each terminated by the newline character,
never buffering more than one record; the record serializer `enc` models
the external JSON library. -/
def jsonStreamWrite {ρ : Type} (enc : ρ → List Char) (rows : List ρ) : List Char :=
  List.foldr (fun r acc => enc r ++ '\n' :: acc) [] rows

/-! ## C9: ordering of the download processor's actions -/

/-- Modelled from the spec: the observable actions of one download
processor run, in order. -/
inductive DlEvent where
  | wroteManifest
  | transferAttempt (url : String) (ok : Bool)
deriving DecidableEq, Repr

/-- Modelled from the spec: the accumulated on-disk files (in creation
order) and the event log of a download processor run. -/
structure DlRunState where
  files : List (String × List Char)
  events : List DlEvent

/-- Modelled from the spec: the destination file name for a downloaded
asset — the row's `filename` field if present, otherwise derived from the
url (path interpolation is outside this model). -/
def destName (r : ManifestRow) : String :=
  match r.filename with
  | some f => f
  | none => r.url

/-- Modelled from the spec: one transfer step of the download processor: a
successful transfer materializes the file, a failed transfer only records
the per-asset failure. -/
def dlStep (store : String → Option (List Char)) (st : DlRunState)
    (r : ManifestRow) : DlRunState :=
  match store r.url with
  | some bytes =>
    { files := st.files ++ [(destName r, bytes)],
      events := st.events ++ [DlEvent.transferAttempt r.url true] }
  | none =>
    { files := st.files,
      events := st.events ++ [DlEvent.transferAttempt r.url false] }

/-- Modelled from the spec: a download processor run first materializes the
full json-stream query result as the on-disk manifest file
`download-manifest.json`, and only afterwards iterates the manifest rows,
attempting each referenced transfer in order. -/
def downloadRun (enc : ManifestRow → List Char)
    (store : String → Option (List Char)) (rows : List ManifestRow) : DlRunState :=
  List.foldl (dlStep store)
    { files := [("download-manifest.json", jsonStreamWrite enc rows)],
      events := [DlEvent.wroteManifest] }
    rows

/-! ## C10: template interpolation (`$field`) versus `{key}` formatting -/

/-- Modelled from the spec: identifier characters of dollar placeholders
(Python string.Template convention): letters, digits, underscore. -/
def isIdentChar (c : Char) : Bool := c.isAlphanum || c = '_'

/-- Modelled from the spec: looking a field name up in a record (or a key
in the context), both given as character lists. -/
def lookupField (env : List (List Char × List Char)) (name : List Char) :
    Option (List Char) :=
  match env with
  | [] => none
  | (k, v) :: rest => if k = name then some v else lookupField rest name

/-- Modelled from the spec: fuelled worker for template rendering; the
fuel only bounds the recursion depth — one unit of fuel is spent per
consumed leading character, so any fuel at least the input length yields
the full rendering. -/
def renderTemplateAux (env : List (List Char × List Char)) :
    Nat → List Char → List Char
  | 0, l => l
  | _ + 1, [] => []
  | fuel + 1, c :: rest =>
    if c = '$' then
      match rest.takeWhile isIdentChar with
      | [] => '$' :: renderTemplateAux env fuel rest
      | n0 :: name =>
        match lookupField env (n0 :: name) with
        | some v => v ++ renderTemplateAux env fuel (rest.dropWhile isIdentChar)
        | none =>
          '$' :: n0 :: name ++ renderTemplateAux env fuel (rest.dropWhile isIdentChar)
    else c :: renderTemplateAux env fuel rest

/-- Modelled from the spec: rendering a template through the
template-interpolation transform (string.Template convention): each
`$field` placeholder — a dollar sign followed by a maximal nonempty
identifier run — is replaced by the record's value for that field; every
other character passes through verbatim, and a placeholder without a
binding is kept literally. -/
def renderTemplate (env : List (List Char × List Char)) (l : List Char) : List Char :=
  renderTemplateAux env l.length l

/-- Modelled from the spec: scanning for the closing brace of a `{key}`
placeholder — returns the key and the characters after the brace. -/
def braceSplit : List Char → Option (List Char × List Char)
  | [] => none
  | c :: cs =>
    if c = Char.ofNat 125 then some ([], cs)
    else
      match braceSplit cs with
      | none => none
      | some (nm, tail) => some (c :: nm, tail)

/-- Modelled from the spec: fuelled worker for the `{key}`-style str.format
interpolation the orchestrator applies to processor_params strings. -/
def formatBracesAux (env : List (List Char × List Char)) :
    Nat → List Char → List Char
  | 0, l => l
  | _ + 1, [] => []
  | fuel + 1, c :: rest =>
    if c = Char.ofNat 123 then
      match braceSplit rest with
      | none => c :: rest
      | some (nm, tail) =>
        match lookupField env nm with
        | some v => v ++ formatBracesAux env fuel tail
        | none => c :: nm ++ Char.ofNat 125 :: formatBracesAux env fuel tail
    else c :: formatBracesAux env fuel rest

/-- Modelled from the spec: the `{key}`-style str.format interpolation of
processor_params strings against the context. -/
def formatBraces (env : List (List Char × List Char)) (l : List Char) : List Char :=
  formatBracesAux env l.length l

/-- Modelled from the spec: the template-interpolation transform renders
the caller-supplied template once per json-stream input record, using the
record's fields as the substitution variables, and appends each rendered
text to the plain-text output in record order. -/
def interpolationProcess (tpl : List Char)
    (rows : List (List (List Char × List Char))) : List Char :=
  List.foldl (fun acc r => acc ++ renderTemplate r tpl) [] rows

/-! ## C2: the paginated query executor -/

/-- Modelled from the spec: a catalog row under paged query execution,
carrying its unique monotonic sort-key value (the caller-specified sort
column, e.g. `nid` in `paged_query_sort_columns`) and its payload. -/
structure PagedRow where
  nid : Nat
  payload : String
deriving DecidableEq, Repr

/-- Modelled from the spec: the bounded-query predicate — with no cursor
every stored row qualifies, with a resume cursor only the rows whose sort
key lies strictly beyond the last-seen value qualify. -/
def cursorKeep (cur : Option Nat) (r : PagedRow) : Bool :=
  match cur with
  | none => true
  | some c => decide (c < r.nid)

/-- Modelled from the spec: the rows a bounded query can still return
after the resume cursor, in stored (sort-key) order. -/
def remainingRows (data : List PagedRow) (cur : Option Nat) : List PagedRow :=
  data.filter (cursorKeep cur)

/-- Modelled from the spec: the paged query loop — each round issues one
bounded query returning at most `n` rows beyond the cursor; a page shorter
than `n` signals exhaustion and ends the loop, while a full page is
followed by another round using the page's last sort-key value as the next
resume cursor.  The fuel argument only bounds the number of rounds. -/
def pagedLoop (data : List PagedRow) (n : Nat) :
    Nat → Option Nat → List (List PagedRow)
  | 0, _ => []
  | fuel + 1, cur =>
    let page := (remainingRows data cur).take n
    if page.length < n then [page]
    else
      match page.getLast? with
      | none => [page]
      | some last => page :: pagedLoop data n fuel (some last.nid)

/-- Modelled from the spec: paged query execution — repeated bounded
queries starting from no cursor, with enough fuel that exhaustion, never
fuel, ends the loop. -/
def pagedQuery (data : List PagedRow) (n : Nat) : List (List PagedRow) :=
  pagedLoop data n (data.length + 1) none

end Deriva

namespace Deriva

/-! ## Helper lemmas -/

/-- Substituting a different value at one position of a byte list changes
its byte-sum digest. -/
theorem sum_set_ne (l : List Nat) (p v : Nat) (hp : p < l.length)
    (hv : v ≠ l.get ⟨p, hp⟩) : (l.set p v).sum ≠ l.sum := by
  induction l generalizing p with
  | nil => exact absurd hp (by simp)
  | cons a t ih =>
    cases p with
    | zero =>
      simp only [List.set_cons_zero, List.sum_cons]
      intro h
      exact hv (by simpa using Nat.add_right_cancel h)
    | succ q =>
      have hq : q < t.length := by simpa using hp
      simp only [List.set_cons_succ, List.sum_cons]
      intro h
      exact ih q hq (by simpa using hv) (Nat.add_left_cancel h)

/-! ## Theorems for C5, C7, C8 -/

/-- C1: for every fetch-reference run, a row with a missing length or
checksum field is resolved through the HTTP HEAD metadata probe against its
url; a row whose metadata is still unresolved is exactly the one reported
as an error for that asset; and in the default (non-strict) mode the stage
completes with one result per manifest row, never aborting. -/
theorem fetch_metadata_fallback_per_asset (probe : String → ProbeResult)
    (rows : List ManifestRow) :
    fetchStage probe false rows
      = StageOutcome.completed (rows.map (fetchRowProcess probe)) ∧
    (rows.map (fetchRowProcess probe)).length = rows.length ∧
    (∀ r : ManifestRow, r.length = none →
       resolveLength probe r = (probe r.url).length) ∧
    (∀ r : ManifestRow, r.checksum = none →
       resolveChecksum probe r = (probe r.url).checksum) ∧
    (∀ r : ManifestRow, (fetchRowProcess probe r).isError = true ↔
       (resolveLength probe r = none ∨ resolveChecksum probe r = none)) := by
  refine ⟨by simp [fetchStage], by simp, ?_, ?_, ?_⟩
  · intro r h
    simp [resolveLength, h]
  · intro r h
    simp [resolveChecksum, h]
  · intro r
    cases hl : resolveLength probe r <;> cases hc : resolveChecksum probe r <;>
      simp [fetchRowProcess, hl, hc, RowResult.isError]

/-- C1 witness: a probe supplying length 5 and checksum 7 resolves a row
with both fields missing, and the one-row stage completes. -/
theorem fetch_metadata_fallback_per_asset_witness :
    resolveLength
        (fun _ => { length := some 5, checksum := some 7 })
        ({ url := "u" } : ManifestRow)
      = ((fun _ : String =>
           ({ length := some 5, checksum := some 7 } : ProbeResult)) "u").length ∧
    fetchStage (fun _ => { length := some 5, checksum := some 7 }) false
        [({ url := "u" } : ManifestRow)]
      = StageOutcome.completed
          (List.map
            (fetchRowProcess (fun _ => { length := some 5, checksum := some 7 }))
            [({ url := "u" } : ManifestRow)]) :=
  ⟨(fetch_metadata_fallback_per_asset
      (fun _ => { length := some 5, checksum := some 7 })
      [({ url := "u" } : ManifestRow)]).2.2.1 ({ url := "u" } : ManifestRow) rfl,
   (fetch_metadata_fallback_per_asset
      (fun _ => { length := some 5, checksum := some 7 })
      [({ url := "u" } : ManifestRow)]).1⟩

/-- C3: when every downloaded object's bytes match the row's declared
checksum, verification succeeds for every asset; and when exactly one
stored object has a single byte substituted, the non-strict download stage
still completes, reporting a checksum mismatch for exactly that asset and
success for every other row. -/
theorem download_verify_ok_and_single_byte_mismatch :
    (∀ (hash : List Nat → Nat) (store : String → Option (List Nat))
       (rows : List ManifestRow),
       (∀ r ∈ rows, ∃ b c, store r.url = some b ∧ r.checksum = some c ∧ hash b = c) →
       downloadVerifyStage hash store false rows
         = StageOutcome.completed (rows.map fun _ => DlVerify.ok)) ∧
    (∀ (store : String → Option (List Nat)) (pre post : List ManifestRow)
       (rj : ManifestRow) (bytesj : List Nat) (ckj p v : Nat),
       (∀ r ∈ pre ++ rj :: post,
          ∃ b c, store r.url = some b ∧ r.checksum = some c ∧ digest b = c) →
       (∀ r ∈ pre ++ post, r.url ≠ rj.url) →
       store rj.url = some bytesj → rj.checksum = some ckj →
       ∀ (hp : p < bytesj.length), v ≠ bytesj.get ⟨p, hp⟩ →
       downloadVerifyStage digest
           (fun u => if u = rj.url then some (bytesj.set p v) else store u)
           false (pre ++ rj :: post)
         = StageOutcome.completed
             (pre.map (fun _ => DlVerify.ok)
               ++ DlVerify.checksumMismatch :: post.map (fun _ => DlVerify.ok))) := by
  constructor
  · intro hash store rows hcorr
    simp only [downloadVerifyStage, Bool.false_and, if_neg Bool.false_ne_true]
    refine congrArg StageOutcome.completed (List.map_congr_left ?_)
    intro r hr
    obtain ⟨b, c, hb, hc, hbc⟩ := hcorr r hr
    simp [downloadRowProcess, hb, hc, hbc]
  · intro store pre post rj bytesj ckj p v hcorr hdist hbj hcj hp hv
    have hck : digest bytesj = ckj := by
      obtain ⟨b, c, hb, hc, hbc⟩ := hcorr rj (by simp)
      rw [hbj] at hb
      rw [hcj] at hc
      rw [Option.some.inj hb, Option.some.inj hc]
      exact hbc
    have hdig : digest (bytesj.set p v) ≠ ckj := by
      rw [← hck]
      exact sum_set_ne bytesj p v hp hv
    have hother : ∀ r ∈ pre ++ post,
        downloadRowProcess digest
          (fun u => if u = rj.url then some (bytesj.set p v) else store u) r
          = DlVerify.ok := by
      intro r hr
      obtain ⟨b, c, hb, hc, hbc⟩ := hcorr r (by
        rcases List.mem_append.mp hr with h | h
        · exact List.mem_append_left _ h
        · exact List.mem_append_right _ (List.mem_cons_of_mem _ h))
      simp [downloadRowProcess, if_neg (hdist r hr), hb, hc, hbc]
    have hj : downloadRowProcess digest
        (fun u => if u = rj.url then some (bytesj.set p v) else store u) rj
        = DlVerify.checksumMismatch := by
      simp [downloadRowProcess, hcj, hdig]
    simp only [downloadVerifyStage, Bool.false_and, if_neg Bool.false_ne_true]
    refine congrArg StageOutcome.completed ?_
    rw [List.map_append, List.map_cons, hj]
    rw [List.map_congr_left fun r hr => hother r (List.mem_append_left _ hr)]
    rw [List.map_congr_left fun r hr => hother r (List.mem_append_right _ hr)]

/-- C3 witness: with one manifest row whose object is [1, 2, 3] and whose
declared digest is 6, verification succeeds; after substituting byte 0
with 9 the one-row stage completes with a checksum mismatch. -/
theorem download_verify_ok_and_single_byte_mismatch_witness :
    downloadVerifyStage digest (fun _ => some [1, 2, 3]) false
        [({ url := "u", checksum := some 6 } : ManifestRow)]
      = StageOutcome.completed
          (List.map (fun _ => DlVerify.ok)
            [({ url := "u", checksum := some 6 } : ManifestRow)]) ∧
    downloadVerifyStage digest
        (fun u => if u = ({ url := "u", checksum := some 6 } : ManifestRow).url
                  then some (List.set [1, 2, 3] 0 9)
                  else (fun _ : String => some [1, 2, 3]) u)
        false [({ url := "u", checksum := some 6 } : ManifestRow)]
      = StageOutcome.completed
          (List.map (fun _ => DlVerify.ok) ([] : List ManifestRow)
            ++ DlVerify.checksumMismatch
              :: List.map (fun _ => DlVerify.ok) ([] : List ManifestRow)) := by
  constructor
  · exact (download_verify_ok_and_single_byte_mismatch).1 digest
      (fun _ => some [1, 2, 3]) [({ url := "u", checksum := some 6 } : ManifestRow)]
      (by
        intro r hr
        simp only [List.mem_singleton] at hr
        subst hr
        exact ⟨[1, 2, 3], 6, rfl, rfl, by decide⟩)
  · exact (download_verify_ok_and_single_byte_mismatch).2
      (fun _ => some [1, 2, 3]) [] [] ({ url := "u", checksum := some 6 } : ManifestRow)
      [1, 2, 3] 6 0 9
      (by
        intro r hr
        simp only [List.nil_append, List.mem_singleton] at hr
        subst hr
        exact ⟨[1, 2, 3], 6, rfl, rfl, by decide⟩)
      (by intro r hr; simp at hr)
      rfl rfl (by decide) (by decide)

/-- C5: the `env` output processor merges exactly the first returned row's
key-value fields into the shared context, ignoring all later rows, and on a
zero-row result leaves the context completely unchanged while the stage
still succeeds. -/
theorem env_first_row_only_and_empty_nonfatal :
    (∀ (ctx : Ctx) (r : Row) (rest : List Row),
       envProcess (r :: rest) ctx = (mergeRow ctx r, true) ∧
       envProcess (r :: rest) ctx = envProcess [r] ctx) ∧
    (∀ ctx : Ctx, envProcess [] ctx = (ctx, true)) := by
  refine ⟨fun ctx r rest => ⟨rfl, rfl⟩, fun ctx => rfl⟩

/-- C7 counterexample: the claim "whenever content(A) differs from
content(B), the output for [B, A] differs from the output for [A, B]" is
false: for A = [0] and B = [0, 0] the contents differ yet both orders
concatenate to [0, 0, 0]. -/
theorem cat_not_commutative_claim_fails :
    ([0] : List Nat) ≠ [0, 0] ∧
    catProcess [[0], [0, 0]] = catProcess [[0, 0], [0]] := by
  exact ⟨by decide, by decide⟩

/-- C7 (amended): the concatenation processor applied to [A, B] produces
exactly content(A) followed by content(B); and whenever A and B have equal
length and differ, the output for [B, A] differs from the output for
[A, B] (the unrestricted claim fails when one input is a repetition of the
other, e.g. A = [0], B = [0, 0]). -/
theorem cat_append_and_noncommutative (A B : List Nat) :
    catProcess [A, B] = A ++ B ∧
    (A.length = B.length → A ≠ B → catProcess [B, A] ≠ catProcess [A, B]) := by
  constructor
  · simp [catProcess]
  · intro hlen hne
    simp only [catProcess, List.foldl_cons, List.foldl_nil, List.nil_append]
    intro h
    apply hne
    have h1 : (B ++ A).take B.length = B := List.take_left B A
    have h2 : (A ++ B).take A.length = A := List.take_left A B
    rw [h, ← hlen] at h1
    rw [h2] at h1
    exact h1

/-- C7 witness: at A = [1], B = [2] the amended theorem's hypotheses hold
and both conclusions evaluate. -/
theorem cat_append_and_noncommutative_witness :
    catProcess [[1], [2]] = [1] ++ [2] ∧
    catProcess [[2], [1]] ≠ catProcess [[1], [2]] :=
  ⟨(cat_append_and_noncommutative [1] [2]).1,
   (cat_append_and_noncommutative [1] [2]).2 (by decide) (by decide)⟩

/-- C8: when a descriptor carries both a built-in `processor` name and a
`processor_type` external class reference that loads successfully, the
external implementation is the one resolved, and the registry default
mapped to the `processor` name is not used (whenever it differs from the
external implementation, the resolution result is not it). -/
theorem processor_type_overrides_registry
    (externLoad : String → Option ProcImpl) (d : Descriptor)
    (t : String) (impl : ProcImpl)
    (ht : d.processorType = some t) (hl : externLoad t = some impl) :
    resolveProcessor externLoad d = some impl ∧
    (∀ dflt : ProcImpl, builtinRegistry d.processor = some dflt →
       impl ≠ dflt → resolveProcessor externLoad d ≠ some dflt) := by
  have hres : resolveProcessor externLoad d = some impl := by
    unfold resolveProcessor
    rw [ht]
    exact hl
  refine ⟨hres, fun dflt _ hne h => ?_⟩
  rw [hres] at h
  exact hne (Option.some.inj h)

/-- C8 witness: a descriptor naming the built-in `csv` processor but
carrying a `processor_type` resolves to the external class, not to the
`csv` implementation. -/
theorem processor_type_overrides_registry_witness :
    resolveProcessor (fun s => some (ProcImpl.externalProc s))
      { processor := "csv", processorType := some "my.pkg.MyProc" }
      = some (ProcImpl.externalProc "my.pkg.MyProc") ∧
    resolveProcessor (fun s => some (ProcImpl.externalProc s))
      { processor := "csv", processorType := some "my.pkg.MyProc" }
      ≠ some ProcImpl.csvProc :=
  ⟨(processor_type_overrides_registry
      (fun s => some (ProcImpl.externalProc s))
      { processor := "csv", processorType := some "my.pkg.MyProc" }
      "my.pkg.MyProc" (ProcImpl.externalProc "my.pkg.MyProc") rfl rfl).1,
   (processor_type_overrides_registry
      (fun s => some (ProcImpl.externalProc s))
      { processor := "csv", processorType := some "my.pkg.MyProc" }
      "my.pkg.MyProc" (ProcImpl.externalProc "my.pkg.MyProc") rfl rfl).2
     ProcImpl.csvProc rfl (by decide)⟩

/-- C4: a pipeline whose stanza contains any descriptor that resolves to
no known processor (and loads no external class) fails as a whole before
any stage executes: the execution state is returned exactly as seeded — no
query issued, no output file written, no context mutation — even when
resolvable stages are listed before the unresolvable descriptor. -/
theorem unknown_processor_fails_before_any_stage
    (externLoad : String → Option ProcImpl) (queryExec : String → List Row)
    (descriptors : List Descriptor) (st0 : PipeState) (d : Descriptor)
    (hd : d ∈ descriptors) (hres : resolveProcessor externLoad d = none) :
    runPipeline externLoad queryExec descriptors st0 = (st0, false) := by
  have hall : ∀ descs : List Descriptor, d ∈ descs →
      resolveAll externLoad descs = none := by
    intro descs
    induction descs with
    | nil => intro h; cases h
    | cons a ds ih =>
      intro hmem
      rcases List.mem_cons.mp hmem with rfl | h
      · simp [resolveAll, hres]
      · cases ha : resolveProcessor externLoad a
        · simp [resolveAll, ha]
        · simp [resolveAll, ha, ih h]
  simp [runPipeline, hall descriptors hd]

/-- C4 witness: a stanza listing a resolvable `csv` descriptor followed by
an unknown processor name fails with the seed state untouched. -/
theorem unknown_processor_fails_before_any_stage_witness :
    runPipeline (fun _ => none) (fun _ => [])
        [({ processor := "csv" } : Descriptor),
         ({ processor := "bogus" } : Descriptor)]
        { ctx := [], queriesIssued := [], filesWritten := [] }
      = ({ ctx := [], queriesIssued := [], filesWritten := [] }, false) :=
  unknown_processor_fails_before_any_stage (fun _ => none) (fun _ => [])
    [({ processor := "csv" } : Descriptor), ({ processor := "bogus" } : Descriptor)]
    { ctx := [], queriesIssued := [], filesWritten := [] }
    ({ processor := "bogus" } : Descriptor)
    (by decide) (by decide)

/-- A newline-free line written with its terminator splits back off as one
line. -/
theorem splitNL_line (seg rest : List Char) (h : '\n' ∉ seg) :
    splitNL (seg ++ '\n' :: rest) = seg :: splitNL rest := by
  induction seg with
  | nil => simp [splitNL]
  | cons c s ih =>
    have hc : ¬(c = '\n') := fun hcc => h (hcc ▸ List.mem_cons_self c s)
    have hs : '\n' ∉ s := fun hmem => h (List.mem_cons_of_mem c hmem)
    rw [List.cons_append]
    simp only [splitNL, if_neg hc, ih hs]

/-- The json-stream writer's output splits back into exactly the encoded
records, one per line. -/
theorem splitNL_jsonStreamWrite {ρ : Type} (enc : ρ → List Char) :
    ∀ rows : List ρ, (∀ r ∈ rows, '\n' ∉ enc r) →
      splitNL (jsonStreamWrite enc rows) = rows.map enc
  | [], _ => rfl
  | r :: rs, h => by
    have h1 : '\n' ∉ enc r := h r (List.mem_cons_self r rs)
    have h2 : ∀ x ∈ rs, '\n' ∉ enc x := fun x hx => h x (List.mem_cons_of_mem r hx)
    show splitNL (enc r ++ '\n' :: jsonStreamWrite enc rs) = enc r :: rs.map enc
    rw [splitNL_line _ _ h1, splitNL_jsonStreamWrite enc rs h2]

/-- C6: for every finite row stream whose serialized records are
newline-free, the json-stream processor's output consists of exactly one
serialized record per line, in order; and reading the file back line by
line and parsing each line with any parser that inverts the serializer
reproduces the original row sequence, in order. -/
theorem json_stream_one_object_per_line_round_trip {ρ : Type}
    (enc : ρ → List Char) (par : List Char → Option ρ) (rows : List ρ)
    (hnl : ∀ r ∈ rows, '\n' ∉ enc r) :
    splitNL (jsonStreamWrite enc rows) = rows.map enc ∧
    ((∀ r ∈ rows, par (enc r) = some r) →
       (splitNL (jsonStreamWrite enc rows)).map par = rows.map some) := by
  have hs := splitNL_jsonStreamWrite enc rows hnl
  refine ⟨hs, fun hp => ?_⟩
  rw [hs, List.map_map]
  exact List.map_congr_left fun r hr => hp r hr

/-- C6 witness: two concrete newline-free records written by the
json-stream processor read back as exactly those two records. -/
theorem json_stream_one_object_per_line_round_trip_witness :
    splitNL (jsonStreamWrite (fun l : List Char => l) [['a'], ['b', 'c']])
      = List.map (fun l : List Char => l) [['a'], ['b', 'c']] ∧
    (splitNL (jsonStreamWrite (fun l : List Char => l) [['a'], ['b', 'c']])).map
        (fun l : List Char => some l)
      = List.map some [['a'], ['b', 'c']] :=
  ⟨(json_stream_one_object_per_line_round_trip (fun l : List Char => l)
      (fun l : List Char => some l) [['a'], ['b', 'c']] (by decide)).1,
   (json_stream_one_object_per_line_round_trip (fun l : List Char => l)
      (fun l : List Char => some l) [['a'], ['b', 'c']] (by decide)).2
     (fun _ _ => rfl)⟩

/-- Folding the transfer steps only ever appends to the event log: the log
ends up as the starting log followed by one transfer-attempt event per
manifest row, in row order. -/
theorem dlRun_events_order (store : String → Option (List Char)) :
    ∀ (rows : List ManifestRow) (st : DlRunState),
      (List.foldl (dlStep store) st rows).events
        = st.events
            ++ rows.map (fun r => DlEvent.transferAttempt r.url (store r.url).isSome)
  | [], st => by simp
  | r :: rs, st => by
    rw [List.foldl_cons, dlRun_events_order store rs]
    cases h : store r.url <;> simp [dlStep, h]

/-- Folding the transfer steps only ever appends to the file list. -/
theorem dlRun_files_extend (store : String → Option (List Char)) :
    ∀ (rows : List ManifestRow) (st : DlRunState),
      ∃ extra, (List.foldl (dlStep store) st rows).files = st.files ++ extra
  | [], st => ⟨[], by simp⟩
  | r :: rs, st => by
    obtain ⟨e, he⟩ := dlRun_files_extend store rs (dlStep store st r)
    rw [List.foldl_cons, he]
    cases h : store r.url
    · exact ⟨e, by simp [dlStep, h]⟩
    · rename_i bytes
      exact ⟨(destName r, bytes) :: e, by simp [dlStep, h]⟩

/-- When every transfer fails, the transfer steps write no file at all. -/
theorem dlRun_files_all_fail :
    ∀ (rows : List ManifestRow) (st : DlRunState),
      (List.foldl (dlStep (fun _ => none)) st rows).files = st.files
  | [], _ => rfl
  | r :: rs, st => by
    rw [List.foldl_cons, dlRun_files_all_fail rs]
    rfl

/-- C9: every download processor run first materializes the full
json-stream query result as the on-disk manifest file
`download-manifest.json` (the first file created), its event log is the
manifest write followed by exactly one transfer attempt per manifest row
in row order, and when every subsequent transfer fails the manifest file
is still the (only) artifact on disk. -/
theorem download_manifest_written_before_transfers
    (enc : ManifestRow → List Char) (store : String → Option (List Char))
    (rows : List ManifestRow) :
    (downloadRun enc store rows).files.head?
      = some ("download-manifest.json", jsonStreamWrite enc rows) ∧
    (downloadRun enc store rows).events
      = DlEvent.wroteManifest
          :: rows.map (fun r => DlEvent.transferAttempt r.url (store r.url).isSome) ∧
    (downloadRun enc (fun _ => none) rows).files
      = [("download-manifest.json", jsonStreamWrite enc rows)] := by
  refine ⟨?_, ?_, ?_⟩
  · obtain ⟨e, he⟩ := dlRun_files_extend store rows
      { files := [("download-manifest.json", jsonStreamWrite enc rows)],
        events := [DlEvent.wroteManifest] }
    unfold downloadRun
    rw [he]
    rfl
  · unfold downloadRun
    rw [dlRun_events_order]
    rfl
  · unfold downloadRun
    rw [dlRun_files_all_fail]

/-- The rendering worker ignores the exact fuel value as long as the fuel
covers the input length. -/
theorem renderTemplateAux_fuel (env : List (List Char × List Char)) :
    ∀ (fuel fuel' : Nat) (l : List Char), l.length ≤ fuel → l.length ≤ fuel' →
      renderTemplateAux env fuel l = renderTemplateAux env fuel' l := by
  intro fuel
  induction fuel with
  | zero =>
    intro fuel' l hl _
    have hnil : l = [] := List.eq_nil_of_length_eq_zero (Nat.le_zero.mp hl)
    subst hnil
    cases fuel' <;> rfl
  | succ f ih =>
    intro fuel' l hl hl'
    cases fuel' with
    | zero =>
      have hnil : l = [] := List.eq_nil_of_length_eq_zero (Nat.le_zero.mp hl')
      subst hnil
      rfl
    | succ f' =>
      cases l with
      | nil => rfl
      | cons c rest =>
        have hr : rest.length ≤ f := Nat.succ_le_succ_iff.mp (by simpa using hl)
        have hr' : rest.length ≤ f' := Nat.succ_le_succ_iff.mp (by simpa using hl')
        have hd : (rest.dropWhile isIdentChar).length ≤ f :=
          le_trans (List.dropWhile_sublist _).length_le hr
        have hd' : (rest.dropWhile isIdentChar).length ≤ f' :=
          le_trans (List.dropWhile_sublist _).length_le hr'
        by_cases hc : c = '$'
        · simp only [renderTemplateAux, if_pos hc]
          cases htw : rest.takeWhile isIdentChar with
          | nil => rw [ih f' rest hr hr']
          | cons n0 ns =>
            cases hlk : lookupField env (n0 :: ns) with
            | some v => rw [ih f' _ hd hd']
            | none => rw [ih f' _ hd hd']
        · simp only [renderTemplateAux, if_neg hc]
          rw [ih f' rest hr hr']

/-- takeWhile and dropWhile split an all-satisfying run off the front of an
append whose right part does not start with a satisfying element. -/
theorem takeWhile_ident_append (p : Char → Bool) :
    ∀ (name b : List Char), (∀ c ∈ name, p c = true) →
      (∀ c, b.head? = some c → p c = false) →
      (name ++ b).takeWhile p = name ∧ (name ++ b).dropWhile p = b
  | [], b, _, hb => by
    cases b with
    | nil => exact ⟨rfl, rfl⟩
    | cons c cs =>
      have hpc := hb c rfl
      constructor
      · simp [List.takeWhile_cons, hpc]
      · simp [List.dropWhile_cons, hpc]
  | d :: ds, b, hn, hb => by
    have hd : p d = true := hn d (List.mem_cons_self d ds)
    obtain ⟨h1, h2⟩ := takeWhile_ident_append p ds b
      (fun c hc => hn c (List.mem_cons_of_mem d hc)) hb
    constructor
    · simp [List.takeWhile_cons, hd, h1]
    · simp [List.dropWhile_cons, hd, h2]

/-- Rendering passes a non-dollar leading character through verbatim. -/
theorem renderTemplate_cons_not_dollar (env : List (List Char × List Char))
    (c : Char) (l : List Char) (hc : ¬(c = '$')) :
    renderTemplate env (c :: l) = c :: renderTemplate env l := by
  show renderTemplateAux env (c :: l).length (c :: l)
    = c :: renderTemplateAux env l.length l
  simp only [List.length_cons, renderTemplateAux, if_neg hc]

/-- With symbolic fuel, the rendering worker consumes one bound `$field`
placeholder in one step, substituting the bound value. -/
theorem renderTemplateAux_dollar (env : List (List Char × List Char))
    (fuel : Nat) (n0 : Char) (ns b v : List Char)
    (hn : ∀ c ∈ n0 :: ns, isIdentChar c = true)
    (hb : ∀ c, b.head? = some c → isIdentChar c = false)
    (hv : lookupField env (n0 :: ns) = some v) :
    renderTemplateAux env (fuel + 1) ('$' :: (n0 :: ns) ++ b)
      = v ++ renderTemplateAux env fuel b := by
  obtain ⟨htw, hdw⟩ := takeWhile_ident_append isIdentChar (n0 :: ns) b hn hb
  have htw2 : List.takeWhile isIdentChar (n0 :: (ns ++ b)) = n0 :: ns := by
    simpa using htw
  have hdw2 : List.dropWhile isIdentChar (n0 :: (ns ++ b)) = b := by
    simpa using hdw
  simp [renderTemplateAux, htw2, hv, hdw2]

/-- Substitution lemma for template rendering: a bound `$field` placeholder
occurrence, delimited on the right by a non-identifier character, is
replaced by the bound value; the dollar-free text before it passes through
verbatim and rendering continues after the placeholder. -/
theorem renderTemplate_subst (env : List (List Char × List Char)) :
    ∀ (a name b v : List Char), '$' ∉ a → name ≠ [] →
      (∀ c ∈ name, isIdentChar c = true) →
      (∀ c, b.head? = some c → isIdentChar c = false) →
      lookupField env name = some v →
      renderTemplate env (a ++ '$' :: name ++ b) = a ++ v ++ renderTemplate env b
  | [], name, b, v, _, hne, hn, hb, hv => by
    obtain ⟨n0, ns, rfl⟩ : ∃ n0 ns, name = n0 :: ns := by
      cases name with
      | nil => exact absurd rfl hne
      | cons x xs => exact ⟨x, xs, rfl⟩
    show renderTemplate env ('$' :: (n0 :: ns) ++ b) = [] ++ v ++ renderTemplate env b
    rw [renderTemplate,
        show ('$' :: (n0 :: ns) ++ b).length = ((n0 :: ns) ++ b).length + 1 from by simp,
        renderTemplateAux_dollar env ((n0 :: ns) ++ b).length n0 ns b v hn hb hv,
        renderTemplateAux_fuel env ((n0 :: ns) ++ b).length b.length b
          (by simp only [List.length_append, List.length_cons]; omega) (Nat.le_refl _)]
    rfl
  | c :: a2, name, b, v, ha, hne, hn, hb, hv => by
    have hc : ¬(c = '$') := fun h => ha (h ▸ List.mem_cons_self c a2)
    have ha2 : '$' ∉ a2 := fun hm => ha (List.mem_cons_of_mem c hm)
    show renderTemplate env (c :: (a2 ++ '$' :: name ++ b))
      = (c :: a2) ++ v ++ renderTemplate env b
    rw [renderTemplate_cons_not_dollar env c _ hc,
        renderTemplate_subst env a2 name b v ha2 hne hn hb hv]
    simp

/-- The interpolation fold appends each record's rendering in order. -/
theorem interpolation_foldl_flatten :
    ∀ (rows : List (List (List Char × List Char))) (tpl acc : List Char),
      List.foldl (fun acc r => acc ++ renderTemplate r tpl) acc rows
        = acc ++ (rows.map (fun r => renderTemplate r tpl)).flatten
  | [], _, acc => by simp
  | r :: rs, tpl, acc => by
    rw [List.foldl_cons, interpolation_foldl_flatten rs]
    simp

/-- C10: the template-interpolation transform appends one rendering of the
template per input record, in record order; rendering substitutes each
bound `$field` placeholder (string.Template convention) with the record's
value for that field; and this placeholder syntax is distinct from the
`{key}`-style str.format interpolation applied to processor_params: on the
text `$x{x}` with x bound to v, the template engine yields `v{x}` while
the str.format engine yields `$xv`, two different results. -/
theorem interpolation_dollar_syntax :
    (∀ (tpl : List Char) (rows : List (List (List Char × List Char))),
       interpolationProcess tpl rows
         = (rows.map (fun r => renderTemplate r tpl)).flatten) ∧
    (∀ (env : List (List Char × List Char)) (a name b v : List Char),
       '$' ∉ a → name ≠ [] → (∀ c ∈ name, isIdentChar c = true) →
       (∀ c, b.head? = some c → isIdentChar c = false) →
       lookupField env name = some v →
       renderTemplate env (a ++ '$' :: name ++ b) = a ++ v ++ renderTemplate env b) ∧
    renderTemplate [(['x'], ['v'])]
        ['$', 'x', Char.ofNat 123, 'x', Char.ofNat 125]
      = ['v', Char.ofNat 123, 'x', Char.ofNat 125] ∧
    formatBraces [(['x'], ['v'])]
        ['$', 'x', Char.ofNat 123, 'x', Char.ofNat 125]
      = ['$', 'x', 'v'] ∧
    renderTemplate [(['x'], ['v'])]
        ['$', 'x', Char.ofNat 123, 'x', Char.ofNat 125]
      ≠ formatBraces [(['x'], ['v'])]
        ['$', 'x', Char.ofNat 123, 'x', Char.ofNat 125] := by
  refine ⟨?_, ?_, by decide, by decide, by decide⟩
  · intro tpl rows
    rw [interpolationProcess, interpolation_foldl_flatten]
    simp
  · intro env a name b v ha hne hn hb hv
    exact renderTemplate_subst env a name b v ha hne hn hb hv

/-- In a strictly sorted row list, every element's sort key is at most the
last element's. -/
theorem nid_le_getLast :
    ∀ (l : List PagedRow) (m : PagedRow),
      List.Pairwise (fun a b : PagedRow => a.nid < b.nid) l →
      l.getLast? = some m → ∀ x ∈ l, x.nid ≤ m.nid
  | [], _, _, hlast => by cases hlast
  | a :: t, m, hp, hlast => by
    intro x hx
    cases t with
    | nil =>
      have hma : m = a := by simpa using hlast.symm
      have hxa : x = a := by simpa using hx
      rw [hma, hxa]
    | cons b t2 =>
      rw [List.getLast?_cons_cons] at hlast
      rcases List.mem_cons.mp hx with rfl | hx2
      · have hm : m ∈ b :: t2 := List.mem_of_getLast?_eq_some hlast
        exact le_of_lt ((List.pairwise_cons.mp hp).1 m hm)
      · exact nid_le_getLast (b :: t2) m (List.pairwise_cons.mp hp).2 hlast x hx2

/-- In a strictly sorted row list with at least `n` rows, filtering by
"strictly beyond the last sort key of the first `n` rows" yields exactly
the rows after the first `n`. -/
theorem sorted_filter_after_page (rem : List PagedRow) (n : Nat) (last : PagedRow)
    (hs : List.Pairwise (fun a b : PagedRow => a.nid < b.nid) rem)
    (hlast : (rem.take n).getLast? = some last) :
    rem.filter (fun r => decide (last.nid < r.nid)) = rem.drop n := by
  conv_lhs => rw [← List.take_append_drop n rem]
  rw [List.filter_append]
  have hst : List.Pairwise (fun a b : PagedRow => a.nid < b.nid) (rem.take n) :=
    hs.sublist (List.take_sublist n rem)
  have htake : (rem.take n).filter (fun r => decide (last.nid < r.nid)) = [] := by
    apply List.filter_eq_nil_iff.mpr
    intro r hr
    have hle := nid_le_getLast (rem.take n) last hst hlast r hr
    simpa using Nat.not_lt.mpr hle
  have hdrop : (rem.drop n).filter (fun r => decide (last.nid < r.nid)) = rem.drop n := by
    apply List.filter_eq_self.mpr
    intro r hr
    have hmem : last ∈ rem.take n := List.mem_of_getLast?_eq_some hlast
    have hp : List.Pairwise (fun a b : PagedRow => a.nid < b.nid)
        (rem.take n ++ rem.drop n) := by
      rw [List.take_append_drop]
      exact hs
    have hcross := (List.pairwise_append.mp hp).2.2 last hmem r hr
    simpa using hcross
  rw [htake, hdrop, List.nil_append]

/-- Re-querying with the last-seen sort key as cursor sees exactly the
current remainder filtered to rows strictly beyond that key. -/
theorem filter_cursor_last (data : List PagedRow) (cur : Option Nat)
    (last : PagedRow) (hlast : last ∈ remainingRows data cur) :
    remainingRows data (some last.nid)
      = (remainingRows data cur).filter (fun r => decide (last.nid < r.nid)) := by
  unfold remainingRows
  rw [List.filter_filter]
  apply List.filter_congr
  intro x _
  cases cur with
  | none => simp [cursorKeep]
  | some c =>
    have hc : c < last.nid := by
      have hmem := List.of_mem_filter hlast
      simpa [cursorKeep] using hmem
    simp only [cursorKeep]
    by_cases h : last.nid < x.nid
    · simp [h, lt_trans hc h]
    · simp [h]

/-- The paged query loop, run on a strictly sorted dataset with enough
fuel, returns pages that concatenate to exactly the remainder beyond the
cursor; and when the remainder is not a multiple of the page size, the
number of issued pages is remainder / pagesize + 1 (the loop stops right
after the first short page). -/
theorem pagedLoop_spec (data : List PagedRow) (n : Nat) (hn : 1 ≤ n)
    (hs : List.Pairwise (fun a b : PagedRow => a.nid < b.nid) data) :
    ∀ (fuel : Nat) (cur : Option Nat),
      (remainingRows data cur).length ≤ fuel →
      (pagedLoop data n fuel cur).flatten = remainingRows data cur ∧
      ((remainingRows data cur).length % n ≠ 0 →
        (pagedLoop data n fuel cur).length
          = (remainingRows data cur).length / n + 1)
  | 0, cur, hf => by
    have hnil : remainingRows data cur = [] :=
      List.eq_nil_of_length_eq_zero (Nat.le_zero.mp hf)
    constructor
    · simp [pagedLoop, hnil]
    · intro hmod
      rw [hnil] at hmod
      simp at hmod
  | fuel + 1, cur, hf => by
    by_cases hshort : (remainingRows data cur).length < n
    · have hpage : (remainingRows data cur).take n = remainingRows data cur :=
        List.take_of_length_le (le_of_lt hshort)
      have hlt : ((remainingRows data cur).take n).length < n := by
        rw [hpage]
        exact hshort
      have hpl : pagedLoop data n (fuel + 1) cur
          = [(remainingRows data cur).take n] := by
        show (if ((remainingRows data cur).take n).length < n
              then [(remainingRows data cur).take n]
              else
                match ((remainingRows data cur).take n).getLast? with
                | none => [(remainingRows data cur).take n]
                | some last =>
                  (remainingRows data cur).take n
                    :: pagedLoop data n fuel (some last.nid))
            = [(remainingRows data cur).take n]
        rw [if_pos hlt]
      rw [hpl]
      constructor
      · simp [hpage]
      · intro hmod
        simp only [List.length_singleton]
        rw [Nat.div_eq_of_lt hshort]
    · push_neg at hshort
      have hlenpage : ((remainingRows data cur).take n).length = n := by
        rw [List.length_take]
        omega
      have hne : (remainingRows data cur).take n ≠ [] := by
        intro h
        rw [h] at hlenpage
        simp at hlenpage
        omega
      obtain ⟨last, hlast⟩ :=
        Option.isSome_iff_exists.mp (List.getLast?_isSome.mpr hne)
      have hmemrem : last ∈ remainingRows data cur :=
        (List.take_sublist n _).subset (List.mem_of_getLast?_eq_some hlast)
      have hsrem : List.Pairwise (fun a b : PagedRow => a.nid < b.nid)
          (remainingRows data cur) := hs.sublist (List.filter_sublist data)
      have hdropEq : remainingRows data (some last.nid)
          = (remainingRows data cur).drop n := by
        rw [filter_cursor_last data cur last hmemrem]
        exact sorted_filter_after_page (remainingRows data cur) n last hsrem hlast
      have hflen : (remainingRows data (some last.nid)).length ≤ fuel := by
        rw [hdropEq, List.length_drop]
        omega
      have ih := pagedLoop_spec data n hn hs fuel (some last.nid) hflen
      have hnotlt : ¬(((remainingRows data cur).take n).length < n) := by omega
      have hpl : pagedLoop data n (fuel + 1) cur
          = (remainingRows data cur).take n
              :: pagedLoop data n fuel (some last.nid) := by
        show (if ((remainingRows data cur).take n).length < n
              then [(remainingRows data cur).take n]
              else
                match ((remainingRows data cur).take n).getLast? with
                | none => [(remainingRows data cur).take n]
                | some l2 =>
                  (remainingRows data cur).take n
                    :: pagedLoop data n fuel (some l2.nid))
            = (remainingRows data cur).take n
                :: pagedLoop data n fuel (some last.nid)
        rw [if_neg hnotlt, hlast]
      rw [hpl]
      constructor
      · calc ((remainingRows data cur).take n
              :: pagedLoop data n fuel (some last.nid)).flatten
            = (remainingRows data cur).take n
                ++ (pagedLoop data n fuel (some last.nid)).flatten := by simp
          _ = (remainingRows data cur).take n
                ++ remainingRows data (some last.nid) := by rw [ih.1]
          _ = (remainingRows data cur).take n
                ++ (remainingRows data cur).drop n := by rw [hdropEq]
          _ = remainingRows data cur := List.take_append_drop n _
      · intro hmod
        have hmod2 : (remainingRows data (some last.nid)).length % n ≠ 0 := by
          rw [hdropEq, List.length_drop]
          intro h0
          apply hmod
          have hsub : (remainingRows data cur).length
              = ((remainingRows data cur).length - n) + n :=
            (Nat.sub_add_cancel hshort).symm
          rw [hsub, Nat.add_mod_right]
          exact h0
        have hcount := ih.2 hmod2
        have hdiv : (remainingRows data cur).length / n
            = ((remainingRows data cur).length - n) / n + 1 :=
          Nat.div_eq_sub_div (by omega) hshort
        rw [List.length_cons, hcount, hdropEq, List.length_drop, hdiv]

/-- C2: paginated query execution with page size at least 1 over a
dataset strictly sorted by a unique monotonic sort key, with the row count
not a multiple of the page size, concatenates its pages to exactly the
dataset — every row once, no duplicates, no gaps, in sort-key order — and
issues exactly rows / pagesize + 1 bounded queries, stopping right after
the first page that returns fewer rows than requested. -/
theorem paged_query_exact_rows (data : List PagedRow) (n : Nat) (hn : 1 ≤ n)
    (hs : List.Pairwise (fun a b : PagedRow => a.nid < b.nid) data)
    (hmod : data.length % n ≠ 0) :
    (pagedQuery data n).flatten = data ∧
    (pagedQuery data n).length = data.length / n + 1 := by
  have hnone : remainingRows data none = data :=
    List.filter_eq_self.mpr fun a _ => rfl
  have hspec := pagedLoop_spec data n hn hs (data.length + 1) none
    (by rw [hnone]; omega)
  rw [hnone] at hspec
  exact ⟨hspec.1, hspec.2 hmod⟩

/-- C2 witness: a three-row sorted dataset fetched with page size 2 comes
back whole, in two pages. -/
theorem paged_query_exact_rows_witness :
    (pagedQuery [⟨1, "a"⟩, ⟨2, "b"⟩, ⟨3, "c"⟩] 2).flatten
      = [⟨1, "a"⟩, ⟨2, "b"⟩, ⟨3, "c"⟩] ∧
    (pagedQuery [⟨1, "a"⟩, ⟨2, "b"⟩, ⟨3, "c"⟩] 2).length
      = ([⟨1, "a"⟩, ⟨2, "b"⟩, ⟨3, "c"⟩] : List PagedRow).length / 2 + 1 :=
  paged_query_exact_rows [⟨1, "a"⟩, ⟨2, "b"⟩, ⟨3, "c"⟩] 2
    (by decide) (by decide) (by decide)

/-- C10 witness: rendering the template `t$x ` against a record binding x
to v yields `tv `. -/
theorem interpolation_dollar_syntax_witness :
    renderTemplate [(['x'], ['v'])] (['t'] ++ '$' :: ['x'] ++ [' '])
      = ['t'] ++ ['v'] ++ renderTemplate [(['x'], ['v'])] [' '] :=
  interpolation_dollar_syntax.2.1 [(['x'], ['v'])] ['t'] ['x'] [' '] ['v']
    (by decide) (by decide) (by decide) (by decide) (by decide)

end Deriva
